import Mathlib

/-!
Verification development for the cumulant/length-scale engine of the
genesis repository (src/genesis/length_scales/cumulant/calc.py).

The Python source is shallowly embedded over exact arithmetic:

* 2D fields are functions over ZMod nx x ZMod ny with rational values
  (the FFT-based circular cross-correlation of calc_2nd_cumulant is
  expressed directly as the circular correlation sum that the composite
  ifft2(fft2(v1) * conj(fft2(v2))).real / (Nx*Ny) computes under the
  numpy FFT conventions, with the np.roll recentering folded into the
  index arithmetic of the ZMod lattice);
* the width-estimation machinery works on finite coordinate grids
  (structure QField) with rational values; the intergrid interpolation
  used by the source is modelled as a clamped multilinear interpolant;
* scipy.integrate.quad and scipy.optimize.brentq are external numerical
  routines, abstracted as oracle parameters constrained by the
  properties the routines guarantee (nonnegativity of the integral of a
  nonnegative integrand, orientation antisymmetry; roots inside the
  bracketing interval);
* numpy floats become rationals; float NaN is represented by Option
  (none = NaN) or by the FVal type that also carries the two infinities.
-/

/-- np.sign on rationals. -/
def qsign (q : ℚ) : ℚ := if 0 < q then 1 else if q < 0 then -1 else 0

/-- Minimum of a list of rationals (np.min); 0 for the empty list, which
never occurs in the embedded code paths. -/
def listMinQ : List ℚ → ℚ
  | [] => 0
  | [a] => a
  | a :: b :: t => min a (listMinQ (b :: t))

/-- Maximum of a list of rationals (np.max); 0 for the empty list. -/
def listMaxQ : List ℚ → ℚ
  | [] => 0
  | [a] => a
  | a :: b :: t => max a (listMaxQ (b :: t))

/-- np.argmin: index of the first occurrence of the minimum. -/
def argminIdx : List ℚ → ℕ
  | [] => 0
  | [_] => 0
  | a :: b :: t => if a ≤ listMinQ (b :: t) then 0 else argminIdx (b :: t) + 1

/-- np.linspace a b n: n points from a to b inclusive. -/
def linspace (a b : ℚ) (n : ℕ) : List ℚ :=
  (List.range n).map fun k : ℕ => a + (b - a) * (k : ℚ) / ((n : ℚ) - 1)

theorem linspace_length (a b : ℚ) (n : ℕ) : (linspace a b n).length = n := by
  unfold linspace
  rw [List.length_map, List.length_range]

theorem linspace_getD (a b : ℚ) (n : ℕ) (i : ℕ) (hi : i < n) :
    (linspace a b n).getD i 0 = a + (b - a) * i / ((n : ℚ) - 1) := by
  unfold linspace
  rw [List.getD_eq_getElem?_getD, List.getElem?_map, List.getElem?_range hi]
  rfl

theorem listMinQ_le (l : List ℚ) (i : ℕ) (hi : i < l.length) :
    listMinQ l ≤ l.getD i 0 := by
  induction l generalizing i with
  | nil => simp at hi
  | cons a t ih =>
    cases t with
    | nil =>
      cases i with
      | zero => simp [listMinQ]
      | succ j => simp at hi
    | cons b t' =>
      cases i with
      | zero => simp [listMinQ]
      | succ j =>
        have hj : j < (b :: t').length := by simpa using hi
        calc listMinQ (a :: b :: t') ≤ listMinQ (b :: t') := by
              simp [listMinQ]
          _ ≤ (b :: t').getD j 0 := ih j hj
          _ = (a :: b :: t').getD (j + 1) 0 := by simp

theorem argminIdx_lt_length (l : List ℚ) (hl : l ≠ []) : argminIdx l < l.length := by
  induction l with
  | nil => simp at hl
  | cons a t ih =>
    cases t with
    | nil => simp [argminIdx]
    | cons b t' =>
      by_cases h : a ≤ listMinQ (b :: t')
      · simp [argminIdx, h]
      · have := ih (by simp)
        simp only [argminIdx, h, if_false]
        simpa using Nat.succ_lt_succ this

theorem getD_argminIdx (l : List ℚ) (hl : l ≠ []) :
    l.getD (argminIdx l) 0 = listMinQ l := by
  induction l with
  | nil => simp at hl
  | cons a t ih =>
    cases t with
    | nil => simp [argminIdx, listMinQ]
    | cons b t' =>
      by_cases h : a ≤ listMinQ (b :: t')
      · simp only [argminIdx, h, if_true, listMinQ]
        simp [min_eq_left h]
      · have hrec := ih (by simp)
        simp only [argminIdx, h, if_false, listMinQ]
        push_neg at h
        simp only [List.getD_cons_succ, hrec]
        exact (min_eq_right h.le).symm

/-- If a predicate holds at index i, the first index where it holds is at
most i. -/
theorem findIdx_le_of_getD {p : ℚ → Bool} (l : List ℚ) (i : ℕ) (hi : i < l.length)
    (hp : p (l.getD i 0) = true) : l.findIdx p ≤ i := by
  induction l generalizing i with
  | nil => simp at hi
  | cons a t ih =>
    cases i with
    | zero =>
      simp only [List.getD_cons_zero] at hp
      simp [List.findIdx_cons, hp]
    | succ j =>
      by_cases ha : p a
      · simp [List.findIdx_cons, ha]
      · have hj : j < t.length := by simpa using hi
        have := ih j hj (by simpa using hp)
        simp only [List.findIdx_cons, ha, cond_false]
        omega

section Cumulant

variable (nx ny : ℕ) [NeZero nx] [NeZero ny]

/-- Spatial mean of a field (v.mean()). -/
def gridMean (v : ZMod nx → ZMod ny → ℚ) : ℚ :=
  (∑ i, ∑ j, v i j) / (nx * ny)

/-- Mean removal (v = v - v.mean()). -/
def demean (v : ZMod nx → ZMod ny → ℚ) : ZMod nx → ZMod ny → ℚ :=
  fun i j => v i j - gridMean nx ny v

/-- v.where(mask.values, other=0.0): outside the mask the (demeaned) field
is set to zero. -/
def applyMask (v : ZMod nx → ZMod ny → ℚ) (mask : Option (ZMod nx → ZMod ny → Bool)) :
    ZMod nx → ZMod ny → ℚ :=
  match mask with
  | none => v
  | some m => fun i j => if m i j then v i j else 0

/-- The value of fft.ifft2(fft2 w1 * conj (fft2 w2)).real / (Nx*Ny) at lag
(k, l): under the numpy FFT conventions this composite equals the circular
cross-correlation sum below (the convolution theorem); the embedding states
that value directly over the ZMod lattice. -/
def rawCorr (w1 w2 : ZMod nx → ZMod ny → ℚ) (k : ZMod nx) (l : ZMod ny) : ℚ :=
  (∑ p, ∑ q, w1 p q * w2 (p - k) (q - l)) / (nx * ny)

/-- Index of the zero-lag cell after the np.roll recentering (Nx//2). -/
def centerX : ZMod nx := ((nx / 2 : ℕ) : ZMod nx)

/-- Index of the zero-lag cell after the np.roll recentering (Ny//2). -/
def centerY : ZMod ny := ((ny / 2 : ℕ) : ZMod ny)

/-- calc_2nd_cumulant: demean both fields, apply the optional mask, take
the circular cross-correlation, and recentre by the half-grid np.roll
(rolled[i][j] = raw[(i - Nx//2) mod Nx][(j - Ny//2) mod Ny], expressed
through ZMod subtraction). When v2 is None the source reuses the processed
v1. -/
def calc_2nd_cumulant (v1 : ZMod nx → ZMod ny → ℚ)
    (v2 : Option (ZMod nx → ZMod ny → ℚ))
    (mask : Option (ZMod nx → ZMod ny → Bool)) : ZMod nx → ZMod ny → ℚ :=
  let w1 := applyMask nx ny (demean nx ny v1) mask
  let w2 := match v2 with
    | none => w1
    | some u => applyMask nx ny (demean nx ny u) mask
  fun i j => rawCorr nx ny w1 w2 (i - centerX nx) (j - centerY ny)

/-- The field's variance as the claim words it: the mean of the squared
deviations of the values from the spatial mean. -/
def gridVariance (v : ZMod nx → ZMod ny → ℚ) : ℚ :=
  (∑ i, ∑ j, (v i j - gridMean nx ny v) ^ 2) / (nx * ny)

theorem rawCorr_neg (w : ZMod nx → ZMod ny → ℚ) (k : ZMod nx) (l : ZMod ny) :
    rawCorr nx ny w w (-k) (-l) = rawCorr nx ny w w k l := by
  unfold rawCorr
  congr 1
  calc
    ∑ p, ∑ q, w p q * w (p - -k) (q - -l)
        = ∑ p, ∑ q, w p q * w (p + k) (q + l) := by
          simp [sub_neg_eq_add]
    _ = ∑ p, ∑ q, w (p - k) (q - l) * w p q := by
          refine Fintype.sum_equiv (Equiv.addRight k) _ _ fun p => ?_
          refine Fintype.sum_equiv (Equiv.addRight l) _ _ fun q => ?_
          simp
    _ = ∑ p, ∑ q, w p q * w (p - k) (q - l) := by
          refine Finset.sum_congr rfl fun p _ => Finset.sum_congr rfl fun q _ => ?_
          exact mul_comm _ _

end Cumulant

/-- A concrete 3x3 field for witnesses. -/
def vW5 : ZMod 3 → ZMod 3 → ℚ :=
  fun i j => if i = 0 ∧ j = 0 then 4 else if i = 1 ∧ j = 2 then -3 else (i.val + 2 * j.val : ℕ)

/-- A concrete 2x2 field for witnesses. -/
def vW6 : ZMod 2 → ZMod 2 → ℚ :=
  fun i j => if i = 0 then (if j = 0 then 0 else 1) else (if j = 0 then 2 else 5)

/-- C5: for an autocorrelation (field2 omitted or equal to field1, with or
without a mask) the cumulant field returned by calc_2nd_cumulant is
symmetric about its centre: whenever the index pairs (i, j) and (i', j')
are mirror images through the zero-lag cell (i + i' = 2*center and
j + j' = 2*center), the two values coincide, i.e. C(-dx,-dy) = C(dx,dy). -/
theorem cumulant_autocorr_symmetric (nx ny : ℕ) [NeZero nx] [NeZero ny]
    (v1 : ZMod nx → ZMod ny → ℚ) (v2 : Option (ZMod nx → ZMod ny → ℚ))
    (mask : Option (ZMod nx → ZMod ny → Bool))
    (hauto : v2 = none ∨ v2 = some v1)
    (i i' : ZMod nx) (j j' : ZMod ny)
    (hi : i + i' = centerX nx + centerX nx) (hj : j + j' = centerY ny + centerY ny) :
    calc_2nd_cumulant nx ny v1 v2 mask i j = calc_2nd_cumulant nx ny v1 v2 mask i' j' := by
  have hI : i' - centerX nx = -(i - centerX nx) := by
    have h' : i' = centerX nx + centerX nx - i := by rw [← hi]; ring
    rw [h']; ring
  have hJ : j' - centerY ny = -(j - centerY ny) := by
    have h' : j' = centerY ny + centerY ny - j := by rw [← hj]; ring
    rw [h']; ring
  rcases hauto with h | h <;> subst h <;>
    · show rawCorr nx ny _ _ (i - centerX nx) (j - centerY ny) =
        rawCorr nx ny _ _ (i' - centerX nx) (j' - centerY ny)
      rw [hI, hJ]
      exact (rawCorr_neg nx ny _ _ _).symm

/-- C5 witness: a concrete 3x3 autocorrelation evaluated at a mirror pair. -/
theorem cumulant_autocorr_symmetric_witness :
    ((none : Option (ZMod 3 → ZMod 3 → ℚ)) = none ∨
        (none : Option (ZMod 3 → ZMod 3 → ℚ)) = some vW5) ∧
      calc_2nd_cumulant 3 3 vW5 none none 0 1 = calc_2nd_cumulant 3 3 vW5 none none 2 1 :=
  ⟨Or.inl rfl,
    cumulant_autocorr_symmetric 3 3 vW5 none none (Or.inl rfl) 0 2 1 1
      (by decide) (by decide)⟩

/-- C6: for an unmasked autocorrelation the zero-lag centre cell of the
cumulant equals the field's variance (mean squared deviation from the
spatial mean), via the mean subtraction and the 1/(Nx*Ny) normalisation. -/
theorem cumulant_center_is_variance (nx ny : ℕ) [NeZero nx] [NeZero ny]
    (v : ZMod nx → ZMod ny → ℚ) :
    calc_2nd_cumulant nx ny v none none (centerX nx) (centerY ny) = gridVariance nx ny v := by
  unfold calc_2nd_cumulant rawCorr gridVariance
  simp only [applyMask, sub_self, sub_zero]
  congr 1
  refine Finset.sum_congr rfl fun p _ => Finset.sum_congr rfl fun q _ => ?_
  simp [demean, sq]

/-- C6 witness: the theorem evaluated on a concrete 2x2 field. -/
theorem cumulant_center_is_variance_witness :
    calc_2nd_cumulant 2 2 vW6 none none (centerX 2) (centerY 2) = gridVariance 2 2 vW6 :=
  cumulant_center_is_variance 2 2 vW6

section PrincipalAxis

open Real

/-- np.arctan2 y x over the reals (range (-pi, pi]; the float -0.0 special
cases cannot arise in the real-number model). -/
noncomputable def atan2 (y x : ℝ) : ℝ :=
  if 0 < x then Real.arctan (y / x)
  else if x < 0 then
    (if 0 ≤ y then Real.arctan (y / x) + π else Real.arctan (y / x) - π)
  else
    (if 0 < y then π / 2 else if y < 0 then -(π / 2) else 0)

theorem atan2_range (y x : ℝ) : -π < atan2 y x ∧ atan2 y x ≤ π := by
  have hpi : (0 : ℝ) < π := Real.pi_pos
  have harc_lt := Real.arctan_lt_pi_div_two (y / x)
  have harc_gt := Real.neg_pi_div_two_lt_arctan (y / x)
  unfold atan2
  split_ifs with h1 h2 h3 h4 h5
  · constructor <;> nlinarith
  · -- x < 0, 0 ≤ y: y/x ≤ 0 so arctan (y/x) ≤ 0
    have hyx : y / x ≤ 0 := div_nonpos_iff.mpr (Or.inl ⟨h3, h2.le⟩)
    have : Real.arctan (y / x) ≤ Real.arctan 0 := Real.arctan_strictMono.monotone hyx
    rw [Real.arctan_zero] at this
    constructor <;> nlinarith
  · -- x < 0, y < 0: y/x > 0 so arctan (y/x) > 0
    have hyx : 0 < y / x := div_pos_of_neg_of_neg (by linarith) h2
    have : Real.arctan 0 < Real.arctan (y / x) := Real.arctan_strictMono hyx
    rw [Real.arctan_zero] at this
    constructor <;> nlinarith
  · constructor <;> nlinarith
  · constructor <;> nlinarith
  · constructor <;> nlinarith

/-- Membership of a cell index in the slice window
slice(N//2 - sN//2, N//2 + sN//2) used by identify_principle_axis
(faithful when the slice start is nonnegative). -/
def inWin (N sN : ℕ) (v : ℕ) : Prop :=
  ((N / 2 : ℤ) - (sN / 2 : ℤ)) ≤ (v : ℤ) ∧ (v : ℤ) < (N / 2 : ℤ) + (sN / 2 : ℤ)

instance (N sN v : ℕ) : Decidable (inWin N sN v) := by unfold inWin; infer_instance

/-- The window of cells the moment-of-inertia sums run over. -/
def tensorWindow (nx ny : ℕ) [NeZero nx] [NeZero ny] (sN : ℕ) :
    Finset (ZMod nx × ZMod ny) :=
  Finset.univ.filter fun p => inWin nx sN p.1.val ∧ inWin ny sN p.2.val

/-- The 2x2 moment-of-inertia tensor of identify_principle_axis:
I_func(x, y, m) = [[sum m y^2, sum m x y], [sum m y x, sum x^2 m]] with
m = sign(C[Nx//2, Ny//2]) * C over the window, using the coordinate values
of each cell. -/
def inertiaTensor (nx ny : ℕ) [NeZero nx] [NeZero ny]
    (C : ZMod nx → ZMod ny → ℚ) (x : ZMod nx → ℚ) (y : ZMod ny → ℚ) (sN : ℕ) :
    Matrix (Fin 2) (Fin 2) ℚ :=
  let s := qsign (C (centerX nx) (centerY ny))
  let m : ZMod nx × ZMod ny → ℚ := fun p => s * C p.1 p.2
  let W := tensorWindow nx ny sN
  !![∑ p ∈ W, m p * (y p.2) ^ 2, ∑ p ∈ W, m p * x p.1 * y p.2;
     ∑ p ∈ W, m p * y p.2 * x p.1, ∑ p ∈ W, (x p.1) ^ 2 * m p]

/-- The contract of np.linalg.eig on the (real symmetric) 2x2 tensor, as
numpy documents it: la are the eigenvalues and the COLUMNS V[:,k] are
corresponding unit eigenvectors. Order and signs are not specified by
numpy and are therefore left free. -/
def IsEigOutput (A : Matrix (Fin 2) (Fin 2) ℚ) (la : Fin 2 → ℝ)
    (V : Matrix (Fin 2) (Fin 2) ℝ) : Prop :=
  ∀ k : Fin 2,
    ((A 0 0 : ℝ) * V 0 k + (A 0 1 : ℝ) * V 1 k = la k * V 0 k) ∧
    ((A 1 0 : ℝ) * V 0 k + (A 1 1 : ℝ) * V 1 k = la k * V 1 k) ∧
    (V 0 k) ^ 2 + (V 1 k) ^ 2 = 1

/-- np.argsort of two eigenvalues (ascending, stable): index of the first
element of the sorted order. -/
noncomputable def argsortFst (la : Fin 2 → ℝ) : Fin 2 :=
  if la 1 < la 0 then 1 else 0

/-- The angle computation of identify_principle_axis as the source performs
it: v = v[sort_idx] permutes the ROWS of the eigenvector matrix, v0 = v[0]
is then the row of V at the index of the smallest eigenvalue, and
theta = arctan2(v0[0], v0[1]), shifted by pi when negative. -/
noncomputable def principleAxisCode (la : Fin 2 → ℝ) (V : Matrix (Fin 2) (Fin 2) ℝ) : ℝ :=
  let i0 := argsortFst la
  let v0 : Fin 2 → ℝ := fun j => V i0 j
  let th := atan2 (v0 0) (v0 1)
  if th < 0 then th + π else th

/-- Modelled from the spec: the angle obtained from the eigenVECTOR of the
smallest eigenvalue, i.e. the COLUMN of V at that index (numpy stores
eigenvectors as columns), theta = arctan2(v0_x, v0_y) plus pi if negative. -/
noncomputable def principleAxisSpec (la : Fin 2 → ℝ) (V : Matrix (Fin 2) (Fin 2) ℝ) : ℝ :=
  let k0 := argsortFst la
  let v0 : Fin 2 → ℝ := fun j => V j k0
  let th := atan2 (v0 0) (v0 1)
  if th < 0 then th + π else th

/-- Concrete cumulant field for C3: 2x2 grid with coordinates (0, 1). -/
def vC3 : ZMod 2 → ZMod 2 → ℚ := fun i j => if i = 0 ∧ j = 0 then 0 else 1

/-- Coordinates (0, 1) for the C3 field. -/
def xyC3 : ZMod 2 → ℚ := fun i => if i = 0 then 0 else 1

/-- Eigenvalues numpy may return for the C3 tensor [[2,1],[1,2]]. -/
noncomputable def laC3 : Fin 2 → ℝ := ![3, 1]

/-- Unit eigenvector columns numpy may return for the C3 tensor:
col 0 = (s2, s2) for eigenvalue 3 and col 1 = (-s2, s2) for eigenvalue 1,
where s2 = sqrt 2 / 2. -/
noncomputable def VC3 : Matrix (Fin 2) (Fin 2) ℝ :=
  !![Real.sqrt 2 / 2, -(Real.sqrt 2 / 2); Real.sqrt 2 / 2, Real.sqrt 2 / 2]

theorem inertiaTensor_C3 : inertiaTensor 2 2 vC3 xyC3 xyC3 2 = !![2, 1; 1, 2] := by
  with_unfolding_all decide

theorem sqrt_two_half_pos : (0 : ℝ) < Real.sqrt 2 / 2 := by
  have : (0 : ℝ) < Real.sqrt 2 := Real.sqrt_pos.mpr (by norm_num)
  linarith

theorem sqrt_two_half_sq : (Real.sqrt 2 / 2) ^ 2 = 1 / 2 := by
  have h : Real.sqrt 2 ^ 2 = 2 := Real.sq_sqrt (by norm_num)
  nlinarith [h]

theorem isEigOutput_C3 : IsEigOutput (inertiaTensor 2 2 vC3 xyC3 xyC3 2) laC3 VC3 := by
  rw [inertiaTensor_C3]
  intro k
  fin_cases k <;>
    simp [laC3, VC3, Matrix.cons_val_zero, Matrix.cons_val_one] <;>
    constructor
  · ring
  · constructor
    · ring
    · have := sqrt_two_half_sq; nlinarith [this]
  · ring
  · constructor
    · ring
    · have := sqrt_two_half_sq; nlinarith [this]

theorem principleAxisCode_C3 : principleAxisCode laC3 VC3 = π / 4 := by
  have hx : (0 : ℝ) < Real.sqrt 2 / 2 := sqrt_two_half_pos
  have hi0 : argsortFst laC3 = 1 := by
    unfold argsortFst
    rw [if_pos (show laC3 1 < laC3 0 by norm_num [laC3])]
  have hval : atan2 (VC3 1 0) (VC3 1 1) = π / 4 := by
    have h10 : VC3 1 0 = Real.sqrt 2 / 2 := by simp [VC3]
    have h11 : VC3 1 1 = Real.sqrt 2 / 2 := by simp [VC3]
    rw [h10, h11]
    unfold atan2
    rw [if_pos hx, div_self hx.ne', Real.arctan_one]
  simp only [principleAxisCode, hi0, hval]
  rw [if_neg (not_lt.mpr (by positivity))]

theorem principleAxisSpec_C3 : principleAxisSpec laC3 VC3 = 3 * π / 4 := by
  have hx : (0 : ℝ) < Real.sqrt 2 / 2 := sqrt_two_half_pos
  have hi0 : argsortFst laC3 = 1 := by
    unfold argsortFst
    rw [if_pos (show laC3 1 < laC3 0 by norm_num [laC3])]
  have hval : atan2 (VC3 0 1) (VC3 1 1) = -(π / 4) := by
    have h01 : VC3 0 1 = -(Real.sqrt 2 / 2) := by simp [VC3]
    have h11 : VC3 1 1 = Real.sqrt 2 / 2 := by simp [VC3]
    rw [h01, h11]
    unfold atan2
    rw [if_pos hx]
    rw [neg_div, div_self hx.ne', Real.arctan_neg, Real.arctan_one]
  simp only [principleAxisSpec, hi0, hval]
  rw [if_pos (neg_lt_zero.mpr (by positivity))]
  ring

/-- C3: the claim states that identify_principle_axis returns
arctan2(v0_x, v0_y) (plus pi if negative) for v0 the unit eigenvector of
the smallest eigenvalue of the moment-of-inertia tensor. The code instead
permutes the ROWS of the eigenvector matrix returned by np.linalg.eig
(whose eigenvectors are columns) and takes the first row. On the concrete
field vC3 (tensor [[2,1],[1,2]]) with a legitimate eig output, the code
yields pi/4 while the claimed value is 3*pi/4. -/
theorem identify_principle_axis_row_bug :
    IsEigOutput (inertiaTensor 2 2 vC3 xyC3 xyC3 2) laC3 VC3 ∧
      principleAxisCode laC3 VC3 = π / 4 ∧
      principleAxisSpec laC3 VC3 = 3 * π / 4 ∧
      principleAxisCode laC3 VC3 ≠ principleAxisSpec laC3 VC3 := by
  refine ⟨isEigOutput_C3, principleAxisCode_C3, principleAxisSpec_C3, ?_⟩
  rw [principleAxisCode_C3, principleAxisSpec_C3]
  have := Real.pi_pos
  intro h
  nlinarith

/-- Concrete cumulant field for C4: values [[0,1],[2,5]]. -/
def vC4 : ZMod 2 → ZMod 2 → ℚ :=
  fun i j => if i = 0 then (if j = 0 then 0 else 1) else (if j = 0 then 2 else 5)

/-- Coordinates (-1, 0) for the C4 field. -/
def xyC4 : ZMod 2 → ℚ := fun i => if i = 0 then -1 else 0

/-- Eigenvalues numpy may return for the C4 tensor [[2,0],[0,1]]. -/
noncomputable def laC4 : Fin 2 → ℝ := ![2, 1]

/-- Unit eigenvector columns numpy may return for the C4 tensor: the sign
of an eigenvector is not fixed by the contract, so col 1 = (0,-1) is a
legitimate output. -/
noncomputable def VC4 : Matrix (Fin 2) (Fin 2) ℝ := !![1, 0; 0, -1]

theorem inertiaTensor_C4 : inertiaTensor 2 2 vC4 xyC4 xyC4 2 = !![2, 0; 0, 1] := by
  with_unfolding_all decide

theorem isEigOutput_C4 : IsEigOutput (inertiaTensor 2 2 vC4 xyC4 xyC4 2) laC4 VC4 := by
  rw [inertiaTensor_C4]
  intro k
  fin_cases k <;> refine ⟨?_, ?_, ?_⟩ <;> norm_num [laC4, VC4]

theorem principleAxisCode_C4 : principleAxisCode laC4 VC4 = π := by
  have hi0 : argsortFst laC4 = 1 := by
    unfold argsortFst
    rw [if_pos (show laC4 1 < laC4 0 by norm_num [laC4])]
  have hval : atan2 (VC4 1 0) (VC4 1 1) = π := by
    have h10 : VC4 1 0 = 0 := by simp [VC4]
    have h11 : VC4 1 1 = -1 := by simp [VC4]
    rw [h10, h11]
    unfold atan2
    rw [if_neg (by norm_num), if_pos (by norm_num : (-1 : ℝ) < 0),
      if_pos (le_refl (0 : ℝ)), zero_div, Real.arctan_zero, zero_add]
  simp only [principleAxisCode, hi0, hval]
  rw [if_neg (not_lt.mpr Real.pi_nonneg)]

/-- C4 counterexample: on the concrete field vC4 with a legitimate
np.linalg.eig output the returned angle is exactly pi, which is not
strictly less than pi, so theta lies outside [0, pi). -/
theorem principle_axis_angle_pi :
    IsEigOutput (inertiaTensor 2 2 vC4 xyC4 xyC4 2) laC4 VC4 ∧
      principleAxisCode laC4 VC4 = π ∧ ¬(principleAxisCode laC4 VC4 < π) := by
  refine ⟨isEigOutput_C4, principleAxisCode_C4, ?_⟩
  rw [principleAxisCode_C4]
  exact lt_irrefl π

/-- C4 (amended): for every real-valued cumulant field, window size and
legitimate eig output for the moment-of-inertia tensor, the angle returned
by identify_principle_axis lies in the closed interval [0, pi]: arctan2
has range (-pi, pi] and adding pi to a negative value lands in (0, pi),
but the value pi itself is attainable. -/
theorem principle_axis_angle_in_closed_range (nx ny : ℕ) [NeZero nx] [NeZero ny]
    (C : ZMod nx → ZMod ny → ℚ) (x : ZMod nx → ℚ) (y : ZMod ny → ℚ) (sN : ℕ)
    (la : Fin 2 → ℝ) (V : Matrix (Fin 2) (Fin 2) ℝ)
    (heig : IsEigOutput (inertiaTensor nx ny C x y sN) la V) :
    0 ≤ principleAxisCode la V ∧ principleAxisCode la V ≤ π := by
  simp only [principleAxisCode]
  obtain ⟨hgt, hle⟩ := atan2_range (V (argsortFst la) 0) (V (argsortFst la) 1)
  split_ifs with h
  · constructor <;> linarith
  · exact ⟨not_lt.mp h, hle⟩

/-- C4 amended witness: the amended theorem applied to the concrete C4
field and eig output. -/
theorem principle_axis_angle_in_closed_range_witness :
    IsEigOutput (inertiaTensor 2 2 vC4 xyC4 xyC4 2) laC4 VC4 ∧
      (0 ≤ principleAxisCode laC4 VC4 ∧ principleAxisCode laC4 VC4 ≤ π) :=
  ⟨isEigOutput_C4,
    principle_axis_angle_in_closed_range 2 2 vC4 xyC4 xyC4 2 laC4 VC4 isEigOutput_C4⟩

end PrincipalAxis

section Widths

/-- A 2D field on a finite coordinate grid, dims ('x','y'): vals[i][j] is
the value at (xs[i], ys[j]). -/
structure QField where
  xs : List ℚ
  ys : List ℚ
  vals : List (List ℚ)

/-- data.values.max(). -/
def gridMax (d : QField) : ℚ := listMaxQ d.vals.flatten

/-- data.values.min(). -/
def gridMin (d : QField) : ℚ := listMinQ d.vals.flatten

/-- Cell value accessor (out-of-range indices default to 0; in-bounds
interpolation never reads them with a nonzero weight). -/
def cellVal (d : QField) (i j : ℕ) : ℚ := (d.vals.getD i []).getD j 0

/-- Locate a query coordinate on a monotone axis: the lower cell index and
the interpolation fraction; out-of-range queries clamp to the end nodes. -/
def locate (xs : List ℚ) (p : ℚ) : ℕ × ℚ :=
  let i := xs.findIdx fun t => decide (p < t)
  if i = 0 then (0, 0)
  else if i = xs.length then (xs.length - 1, 0)
  else (i - 1, (p - xs.getD (i - 1) 0) / (xs.getD i 0 - xs.getD (i - 1) 0))

/-- Modelled from the spec: the interpolant built by _get_line_sample_func
comes from genesis.utils.intergrid, which is not under src/; per the spec
it is a continuous interpolant over the field's 2D coordinate grid with
deterministic out-of-domain handling, modelled as the standard bilinear
interpolant with queries clamped to the domain boundary. -/
def interp2 (d : QField) (px py : ℚ) : ℚ :=
  let lx := locate d.xs px
  let ly := locate d.ys py
  (1 - lx.2) * (1 - ly.2) * cellVal d lx.1 ly.1 +
    lx.2 * (1 - ly.2) * cellVal d (lx.1 + 1) ly.1 +
    (1 - lx.2) * ly.2 * cellVal d lx.1 (ly.1 + 1) +
    lx.2 * ly.2 * cellVal d (lx.1 + 1) (ly.1 + 1)

/-- data.values / d_scale. -/
def scaleVals (d : QField) (c : ℚ) : QField :=
  ⟨d.xs, d.ys, d.vals.map (List.map fun v => c * v)⟩

/-- _get_line_sample_func: normalize by the maximum absolute value (with
scale 1 when the field is identically zero), interpolate at the Cartesian
point (cos theta * mu, sin theta * mu) and rescale. The direction is the
exact pair (ct, st) = (cos theta, sin theta), keeping the geometry in
exact arithmetic. -/
def get_line_sample_func (d : QField) (ct st : ℚ) : ℚ → ℚ := fun mu =>
  let ds0 := max (gridMax d) (-(gridMin d))
  let ds := if ds0 = 0 then 1 else ds0
  interp2 (scaleVals d (1 / ds)) (ct * mu) (st * mu) * ds

/-- nx//2 for the field shape (len xs, len ys). -/
def qcx (d : QField) : ℕ := d.xs.length / 2

/-- ny//2. -/
def qcy (d : QField) : ℕ := d.ys.length / 2

/-- The sign-coherence mask np.sign(C_vv) == np.sign(C_vv[nx//2, ny//2]). -/
def sameSignAsCenter (d : QField) (i j : ℕ) : Prop :=
  qsign (cellVal d i j) = qsign (cellVal d (qcx d) (qcy d))

instance (d : QField) (i j : ℕ) : Decidable (sameSignAsCenter d i j) := by
  unfold sameSignAsCenter; infer_instance

/-- All cell indices of the field. -/
def cellIdx (d : QField) : List (ℕ × ℕ) :=
  ((List.range d.xs.length).map fun i =>
    (List.range d.ys.length).map fun j => (i, j)).flatten

/-- 8-connectivity of cells, the default connectivity of
skimage.measure.label on a 2D array. -/
def adj8 (a b : ℕ × ℕ) : Bool :=
  decide (a ≠ b) && decide (max a.1 b.1 - min a.1 b.1 ≤ 1) &&
    decide (max a.2 b.2 - min a.2 b.2 ≤ 1)

/-- One flood-fill step growing the labelled component. -/
def regionStep (d : QField) (S : List (ℕ × ℕ)) : List (ℕ × ℕ) :=
  (cellIdx d).filter fun c =>
    decide (sameSignAsCenter d c.1 c.2) &&
      (decide (c ∈ S) || S.any fun s => adj8 s c)

/-- The connected component (labels == labels[nx//2, ny//2]) of the
sign-coherence mask containing the zero-lag cell; nx*ny flood-fill steps
reach the fixpoint. -/
def centerRegion (d : QField) : List (ℕ × ℕ) :=
  (regionStep d)^[d.xs.length * d.ys.length] [(qcx d, qcy d)]

/-- _extract_cumulant_center: keep the contiguous part of the cumulant
that shares the sign of the origin and mask everything else out. The
source masks with C_vv.where(mask_center, drop=True) (NaN outside the
region, cropped to its bounding box); since the masked cells are to
contribute nothing, the model zeroes them. -/
def extract_cumulant_center (d : QField) : QField :=
  ⟨d.xs, d.ys,
    (List.range d.xs.length).map fun i =>
      (List.range d.ys.length).map fun j =>
        if (i, j) ∈ centerRegion d then cellVal d i j else 0⟩

/-- fn(mu) = np.maximum(0, s * sample_fn(mu)) with s = sign(sample_fn(0)). -/
def clippedWeight (f : ℚ → ℚ) : ℚ → ℚ := fun mu => max 0 (qsign (f 0) * f mu)

/-- fn_inertia(mu) = fn(mu) * |mu|. -/
def inertiaWeight (f : ℚ → ℚ) : ℚ → ℚ := fun mu => clippedWeight f mu * |mu|

/-- The nominal integration interval of mass_weighted_edge: (0, mw/2) when
dir == 1, else (-mw/2, 0). -/
def nominalBounds (mw dir : ℚ) : ℚ × ℚ :=
  if dir = 1 then (0, mw / 2) else (-(mw / 2), 0)

/-- The coarse scan abscissas x_ = np.linspace(a, b, 100). -/
def coarseXs (mw dir : ℚ) : List ℚ :=
  linspace (nominalBounds mw dir).1 (nominalBounds mw dir).2 100

/-- The coarse scan values vals_ = s * sample_fn(x_). -/
def coarseVals (f : ℚ → ℚ) (mw dir : ℚ) : List ℚ :=
  (coarseXs mw dir).map fun t => qsign (f 0) * f t

/-- The integration bounds the source actually uses: when
np.min(vals_) < 0, max_width_local = x_[np.argmin(vals_)] (the abscissa of
the coarse minimum) and the bounds become (0, max_width_local) for dir == 1
and (-max_width_local, 0) otherwise. -/
def massEdgeBounds (f : ℚ → ℚ) (mw dir : ℚ) : ℚ × ℚ :=
  if listMinQ (coarseVals f mw dir) < 0 then
    (if dir = 1 then (0, (coarseXs mw dir).getD (argminIdx (coarseVals f mw dir)) 0)
     else (-((coarseXs mw dir).getD (argminIdx (coarseVals f mw dir)) 0), 0))
  else nominalBounds mw dir

/-- The mass integral of one half-line, for an abstract quadrature oracle Q
standing for scipy.integrate.quad. -/
def edgeMass (Q : (ℚ → ℚ) → ℚ → ℚ → ℚ) (f : ℚ → ℚ) (mw dir : ℚ) : ℚ :=
  Q (clippedWeight f) (massEdgeBounds f mw dir).1 (massEdgeBounds f mw dir).2

/-- The inertia integral of one half-line. -/
def edgeInertia (Q : (ℚ → ℚ) → ℚ → ℚ → ℚ) (f : ℚ → ℚ) (mw dir : ℚ) : ℚ :=
  Q (inertiaWeight f) (massEdgeBounds f mw dir).1 (massEdgeBounds f mw dir).2

/-- mass_weighted_edge: dist = inertia/mass, returned as dir*dist; a zero
mass denominator is Python float division by zero, i.e. the
ZeroDivisionError the caller catches, modelled as none. -/
def mass_weighted_edge (Q : (ℚ → ℚ) → ℚ → ℚ → ℚ) (f : ℚ → ℚ) (mw dir : ℚ) : Option ℚ :=
  if edgeMass Q f mw dir = 0 then none
  else some (dir * (edgeInertia Q f mw dir / edgeMass Q f mw dir))

/-- width = mass_weighted_edge(1.0) - mass_weighted_edge(-1.0), the
ZeroDivisionError handler turning either failure into NaN (none). -/
def widthFromSample (Q : (ℚ → ℚ) → ℚ → ℚ → ℚ) (f : ℚ → ℚ) (mw : ℚ) : Option ℚ :=
  (mass_weighted_edge Q f mw 1).bind fun w1 =>
    (mass_weighted_edge Q f mw (-1)).map fun w2 => w1 - w2

/-- _find_width_through_mass_weighting as the source executes it: the line
sampler is built BEFORE the center extraction, and the reassigned data
(extract_cumulant_center) only supplies coordinate metadata for the
returned DataArray, so the integrals sample the unmasked field even with
center_only=True. -/
def find_width_through_mass_weighting (Q : (ℚ → ℚ) → ℚ → ℚ → ℚ)
    (data : QField) (ct st mw : ℚ) (centerOnly : Bool) : Option ℚ :=
  let sample := get_line_sample_func data ct st
  let _data2 := if centerOnly then extract_cumulant_center data else data
  widthFromSample Q sample mw

/-- Modelled from the spec: the mass-weighted estimator as the claim and
docstring describe it, with the line sampler built over the
sign-coherent-masked field when center_only is set. -/
def find_width_through_mass_weighting_spec (Q : (ℚ → ℚ) → ℚ → ℚ → ℚ)
    (data : QField) (ct st mw : ℚ) (centerOnly : Bool) : Option ℚ :=
  let data2 := if centerOnly then extract_cumulant_center data else data
  widthFromSample Q (get_line_sample_func data2 ct st) mw

/-- Modelled from the spec: truncation of the coarse-scan bounds at the
FIRST crossing, i.e. the smallest coarse-sample distance from zero at
which the sign-flipped weight is negative (scanning outward from zero). -/
def specFirstCrossingBounds (f : ℚ → ℚ) (mw dir : ℚ) : ℚ × ℚ :=
  let xs := coarseXs mw dir
  let vs := coarseVals f mw dir
  let xsOut := if dir = 1 then xs else xs.reverse
  let vsOut := if dir = 1 then vs else vs.reverse
  let i := vsOut.findIdx fun v => decide (v < 0)
  if i < vsOut.length then
    (if dir = 1 then (0, xsOut.getD i 0) else (xsOut.getD i 0, 0))
  else nominalBounds mw dir

/-- Float values with the NaN and infinity sentinels the width estimators
can produce. -/
inductive FVal where
  | fin (q : ℚ)
  | pinf
  | ninf
  | nan
deriving DecidableEq

/-- Float subtraction over the sentinel values. -/
def FVal.sub : FVal → FVal → FVal
  | .nan, _ => .nan
  | _, .nan => .nan
  | .fin a, .fin b => .fin (a - b)
  | .fin _, .pinf => .ninf
  | .fin _, .ninf => .pinf
  | .pinf, .fin _ => .pinf
  | .ninf, .fin _ => .ninf
  | .pinf, .pinf => .nan
  | .pinf, .ninf => .pinf
  | .ninf, .pinf => .ninf
  | .ninf, .ninf => .nan

/-- d_at_inf, the fixed far-field reference of the cutoff normalisation. -/
def dAtInf : ℚ := 0

/-- The normalised profile of _find_width_through_cutoff:
(d_val - d_at_inf) / (d_max - d_at_inf) with d_max = data.values.max(),
the maximum over the WHOLE field. -/
def cutoffNormed (data : QField) (ct st : ℚ) : ℚ → ℚ := fun mu =>
  (get_line_sample_func data ct st mu - dAtInf) / (gridMax data - dAtInf)

/-- Modelled from the spec: the normalisation as the claim words it, with
the peak taken as the maximum of the sampled profile over the window (the
line samples at the grid abscissas within max_width). -/
def specCutoffNormed (data : QField) (ct st mw : ℚ) : ℚ → ℚ := fun mu =>
  let peak := listMaxQ ((data.xs.filter fun t => decide (|t| < mw / 2)).map
    (get_line_sample_func data ct st))
  (get_line_sample_func data ct st mu - dAtInf) / (peak - dAtInf)

/-- root_fn(mu) = normalised(mu) - width_peak_fraction. -/
def cutoffRootFn (data : QField) (ct st frac : ℚ) : ℚ → ℚ := fun mu =>
  cutoffNormed data ct st mu - frac

/-- mu_lim: the first point of np.linspace(0, dir*max_width, 100) where the
normalised profile is negative, or dir*max_width when there is none. -/
def cutoffMuLim (data : QField) (ct st mw dir : ℚ) : ℚ :=
  let ms := linspace 0 (dir * mw) 100
  let ds := ms.map (cutoffNormed data ct st)
  let i := ds.findIdx fun v => decide (v < 0)
  if i < ms.length then ms.getD i 0 else dir * mw

/-- The contract of scipy.optimize.brentq as an abstract root finder: it
raises ValueError (none) when the bracket endpoints have the same strict
sign, and any root it returns lies inside the bracket and is a root. -/
def IsRootFinder (RF : (ℚ → ℚ) → ℚ → ℚ → Option ℚ) : Prop :=
  ∀ f a b, (0 < f a * f b → RF f a b = none) ∧
    ∀ r, RF f a b = some r → min a b ≤ r ∧ r ≤ max a b ∧ f r = 0

/-- find_edge: brentq on [0, mu_lim]; on ValueError the edge becomes
np.inf (positive infinity for BOTH directions). -/
def cutoffEdge (RF : (ℚ → ℚ) → ℚ → ℚ → Option ℚ)
    (data : QField) (ct st frac mw dir : ℚ) : FVal :=
  match RF (cutoffRootFn data ct st frac) 0 (cutoffMuLim data ct st mw dir) with
  | some r => .fin r
  | none => .pinf

/-- _find_width_through_cutoff: width = find_edge(1.0) - find_edge(-1.0). -/
def find_width_through_cutoff (RF : (ℚ → ℚ) → ℚ → ℚ → Option ℚ)
    (data : QField) (ct st frac mw : ℚ) : FVal :=
  (cutoffEdge RF data ct st frac mw 1).sub (cutoffEdge RF data ct st frac mw (-1))

/-- A quadrature is nonnegative on a nonnegative integrand over an ordered
interval (true of the exact integral scipy.integrate.quad approximates). -/
def QuadNonneg (Q : (ℚ → ℚ) → ℚ → ℚ → ℚ) : Prop :=
  ∀ f a b, a ≤ b → (∀ t, 0 ≤ f t) → 0 ≤ Q f a b

/-- Reversing the interval negates the quadrature. -/
def QuadRev (Q : (ℚ → ℚ) → ℚ → ℚ → ℚ) : Prop :=
  ∀ f a b, Q f a b = -(Q f b a)

/-- The midpoint rule, a concrete quadrature satisfying both properties. -/
def midQuad : (ℚ → ℚ) → ℚ → ℚ → ℚ := fun f a b => (b - a) * f ((a + b) / 2)

theorem midQuad_nonneg : QuadNonneg midQuad := by
  intro f a b hab hf
  exact mul_nonneg (by linarith) (hf _)

theorem midQuad_rev : QuadRev midQuad := by
  intro f a b
  unfold midQuad
  rw [add_comm b a]
  ring

/-- The identically-zero quadrature (degenerate integrals). -/
def zeroQuad : (ℚ → ℚ) → ℚ → ℚ → ℚ := fun _ _ _ => 0

/-- A root finder that always reports a failed bracket. -/
def noRoot : (ℚ → ℚ) → ℚ → ℚ → Option ℚ := fun _ _ _ => none

theorem noRoot_isRootFinder : IsRootFinder noRoot := by
  intro f a b
  exact ⟨fun _ => rfl, fun r h => by simp [noRoot] at h⟩

end Widths

/- The list recursions below must not be unfolded by the elaborator's
unifier on symbolic arguments (a 100-point coarse scan would be expanded
term-by-term); concrete evaluations use with_unfolding_all, and the proofs
below manipulate these definitions only through their equations. -/
attribute [irreducible] listMinQ listMaxQ argminIdx linspace coarseXs coarseVals

/-- C8: whenever the mass integral (the centroid denominator) of either
half-line is zero, the mass-weighted estimator returns NaN (none) for the
width: the division is Python float division by zero, the resulting
ZeroDivisionError is caught by the try/except around the two edges, and
np.nan is returned instead of the exception escaping. -/
theorem mass_zero_denominator_gives_nan
    (Q : (ℚ → ℚ) → ℚ → ℚ → ℚ) (data : QField) (ct st mw : ℚ) (centerOnly : Bool)
    (h : edgeMass Q (get_line_sample_func data ct st) mw 1 = 0 ∨
      edgeMass Q (get_line_sample_func data ct st) mw (-1) = 0) :
    find_width_through_mass_weighting Q data ct st mw centerOnly = none := by
  rcases h with h | h
  · show widthFromSample Q (get_line_sample_func data ct st) mw = none
    unfold widthFromSample
    rw [show mass_weighted_edge Q (get_line_sample_func data ct st) mw 1 = none by
      unfold mass_weighted_edge; rw [if_pos h]]
    rfl
  · show widthFromSample Q (get_line_sample_func data ct st) mw = none
    unfold widthFromSample
    rw [show mass_weighted_edge Q (get_line_sample_func data ct st) mw (-1) = none by
      unfold mass_weighted_edge; rw [if_pos h]]
    cases mass_weighted_edge Q (get_line_sample_func data ct st) mw 1 <;> rfl

/-- A small concrete field for witnesses of the width claims. -/
def dataW10 : QField := ⟨[-100, 0, 100], [-100, 0, 100], [[0, 0, 0], [0, 4, 0], [0, 0, 0]]⟩

/-- C8 witness: a quadrature that returns zero mass on the concrete field
makes the estimator return NaN. -/
theorem mass_zero_denominator_gives_nan_witness :
    edgeMass zeroQuad (get_line_sample_func dataW10 1 0) 100 1 = 0 ∧
      find_width_through_mass_weighting zeroQuad dataW10 1 0 100 true = none :=
  ⟨rfl, mass_zero_denominator_gives_nan zeroQuad dataW10 1 0 100 true (Or.inl rfl)⟩

/-- The growth condition of the charactistic_scales loop:
d_width/mean_width > 0.30 and width_perpendicular > width_principle_axis. -/
def scalesGrowCond (p q : ℚ) : Bool :=
  decide (|q - p| / ((q + p) / 2) > 3 / 10) && decide (q > p)

/-- One pass of the adaptive window-growth loop of charactistic_scales.
The widths along and across the axis are abstracted as functions wP, wQ
of the window size l_win (in the source they are the deterministic
composition of identify_principle_axis and the width estimator; none
models a NaN width). The state is (l_win, m). When either width is NaN
the loop breaks returning the current values; when the growth condition
holds the source ALWAYS continues with l_win = 1.2*l_win and m = m+1: for
m > 10 it emits the warning and assigns NaN to theta and both widths, but
the break directly below those assignments is commented out in the source,
so the next pass recomputes theta and the widths and overwrites the NaN
assignments. -/
def scalesStep (wP wQ : ℚ → Option ℚ) (st : ℚ × ℕ) :
    (Option ℚ × Option ℚ) ⊕ (ℚ × ℕ) :=
  match wP st.1, wQ st.1 with
  | some p, some q =>
    if scalesGrowCond p q then Sum.inr (12 / 10 * st.1, st.2 + 1)
    else Sum.inl (some p, some q)
  | p?, q? => Sum.inl (p?, q?)

/-- The while-True loop of charactistic_scales with explicit fuel; none
means the loop has not terminated within the given number of passes. -/
def scalesLoop (wP wQ : ℚ → Option ℚ) : ℕ → ℚ × ℕ → Option (Option ℚ × Option ℚ)
  | 0, _ => none
  | n + 1, st =>
    match scalesStep wP wQ st with
    | Sum.inl r => some r
    | Sum.inr st' => scalesLoop wP wQ n st'

/-- Widths of a structure whose perpendicular width stays above the
principal width by more than 30% at every window size: 100 m along the
axis and 200 m across it. -/
def wPconst : ℚ → Option ℚ := fun _ => some 100

/-- The perpendicular width of the same structure. -/
def wQconst : ℚ → Option ℚ := fun _ => some 200

/-- C2: the claim says the window-growth loop performs at most a bounded
number of iterations and on reaching the bound reports NaN and returns;
but the break after the NaN assignments is commented out in the source, so
on an input whose widths keep the growth condition true at every window
size the while-True loop never exits: for every fuel n the loop is still
running. -/
theorem charactistic_scales_loop_never_terminates :
    ∀ (n : ℕ) (st : ℚ × ℕ), scalesLoop wPconst wQconst n st = none := by
  intro n
  induction n with
  | zero => intro st; rfl
  | succ k ih =>
    intro st
    have hcond : scalesGrowCond 100 200 = true := by with_unfolding_all decide
    simp only [scalesLoop, scalesStep, wPconst, wQconst, hcond, if_true]
    exact ih _

set_option maxRecDepth 10000

theorem linspace_getD_bounds (a b : ℚ) (n k : ℕ) (hab : a ≤ b) (hk : k < n)
    (hn : 2 ≤ n) : a ≤ (linspace a b n).getD k 0 ∧ (linspace a b n).getD k 0 ≤ b := by
  rw [linspace_getD a b n k hk]
  have hn1 : (0 : ℚ) < (n : ℚ) - 1 := by
    have : (2 : ℚ) ≤ (n : ℚ) := by exact_mod_cast hn
    linarith
  have hk1 : (k : ℚ) ≤ (n : ℚ) - 1 := by
    have : (k : ℚ) + 1 ≤ (n : ℚ) := by exact_mod_cast hk
    linarith
  constructor
  · have h0 : 0 ≤ (b - a) * (k : ℚ) / ((n : ℚ) - 1) :=
      div_nonneg (mul_nonneg (by linarith) (by positivity)) hn1.le
    linarith
  · have h1 : (b - a) * (k : ℚ) / ((n : ℚ) - 1) ≤ b - a := by
      rw [div_le_iff hn1]
      have := mul_le_mul_of_nonneg_left hk1 (by linarith : (0 : ℚ) ≤ b - a)
      linarith
    linarith

theorem linspace_getD_mono (a b : ℚ) (n i j : ℕ) (hab : a ≤ b) (hij : i ≤ j)
    (hj : j < n) (hn : 2 ≤ n) :
    (linspace a b n).getD i 0 ≤ (linspace a b n).getD j 0 := by
  rw [linspace_getD a b n i (lt_of_le_of_lt hij hj), linspace_getD a b n j hj]
  have hn1 : (0 : ℚ) < (n : ℚ) - 1 := by
    have : (2 : ℚ) ≤ (n : ℚ) := by exact_mod_cast hn
    linarith
  have hij' : (i : ℚ) ≤ (j : ℚ) := by exact_mod_cast hij
  have hmul := mul_le_mul_of_nonneg_left hij' (by linarith : (0 : ℚ) ≤ b - a)
  have hdiv : (b - a) * (i : ℚ) / ((n : ℚ) - 1) ≤ (b - a) * (j : ℚ) / ((n : ℚ) - 1) :=
    div_le_div_of_nonneg_right (by linarith) hn1.le
  linarith

/-- Concrete cumulant field for C7: along y = 0 the profile through the
nodes x = -99..99 is [-5, 1, -1, 1, -1, 1, -5], so the sign-flipped coarse
scan first crosses zero early (at distance 17) but attains its minimum at
the far end of the window (distance 99). -/
def dataC7 : QField :=
  ⟨[-99, -66, -33, 0, 33, 66, 99], [-33, 0, 33],
   [[0, -5, 0], [0, 1, 0], [0, -1, 0], [0, 1, 0], [0, -1, 0], [0, 1, 0], [0, -5, 0]]⟩

/-- The line sampler of dataC7 along theta = 0. -/
def f7 : ℚ → ℚ := get_line_sample_func dataC7 1 0

theorem nominalBounds_pos (mw : ℚ) : nominalBounds mw 1 = (0, mw / 2) := by
  unfold nominalBounds
  rw [if_pos rfl]

theorem coarseXs7pos_getD (k : ℕ) (hk : k < 100) :
    (coarseXs 198 1).getD k 0 = k := by
  unfold coarseXs
  rw [nominalBounds_pos]
  rw [linspace_getD 0 (198 / 2) 100 k hk]
  norm_num

theorem coarseVals_length (f : ℚ → ℚ) (mw dir : ℚ) :
    (coarseVals f mw dir).length = 100 := by
  unfold coarseVals
  rw [List.length_map]
  unfold coarseXs
  exact linspace_length _ _ 100

theorem coarseVals_ne_nil (f : ℚ → ℚ) (mw dir : ℚ) : coarseVals f mw dir ≠ [] := by
  intro h
  have := coarseVals_length f mw dir
  rw [h] at this
  simp at this

theorem cv7pos_getD99 : (coarseVals f7 198 1).getD 99 0 = -5 := by
  with_unfolding_all decide

theorem cv7pos_getD17 : (coarseVals f7 198 1).getD 17 0 = -1/33 := by
  with_unfolding_all decide

theorem cv7pos_findIdx : (coarseVals f7 198 1).findIdx (fun v => decide (v < 0)) = 17 := by
  with_unfolding_all decide

theorem cv7pos_min_lt : listMinQ (coarseVals f7 198 1) < 0 := by
  have h := listMinQ_le (coarseVals f7 198 1) 99 (by rw [coarseVals_length]; norm_num)
  rw [cv7pos_getD99] at h
  linarith

theorem cv7pos_am_lt : argminIdx (coarseVals f7 198 1) < 100 := by
  have := argminIdx_lt_length _ (coarseVals_ne_nil f7 198 1)
  rwa [coarseVals_length] at this

theorem cv7pos_am_ne17 : argminIdx (coarseVals f7 198 1) ≠ 17 := by
  intro h
  have hg := getD_argminIdx _ (coarseVals_ne_nil f7 198 1)
  rw [h, cv7pos_getD17] at hg
  have h99 := listMinQ_le (coarseVals f7 198 1) 99 (by rw [coarseVals_length]; norm_num)
  rw [cv7pos_getD99, ← hg] at h99
  norm_num at h99

theorem cv7neg_getD0 : (coarseVals f7 198 (-1)).getD 0 0 = -5 := by
  with_unfolding_all decide

theorem cv7neg_min_lt : listMinQ (coarseVals f7 198 (-1)) < 0 := by
  have h := listMinQ_le (coarseVals f7 198 (-1)) 0 (by rw [coarseVals_length]; norm_num)
  rw [cv7neg_getD0] at h
  linarith

theorem specBounds7_pos : specFirstCrossingBounds f7 198 1 = (0, 17) := by
  simp only [specFirstCrossingBounds, if_true]
  rw [cv7pos_findIdx, coarseVals_length]
  rw [if_pos (show (17 : ℕ) < 100 by norm_num)]
  rw [coarseXs7pos_getD 17 (by norm_num)]
  norm_num

theorem massEdgeBounds7_eq :
    massEdgeBounds f7 198 1 = (0, ((argminIdx (coarseVals f7 198 1) : ℕ) : ℚ)) := by
  unfold massEdgeBounds
  rw [if_pos cv7pos_min_lt, if_pos rfl, coarseXs7pos_getD _ cv7pos_am_lt]

/-- C7 counterexample: on the concrete field dataC7 sampled along
theta = 0 with max_width = 198, the sign-flipped coarse scan first crosses
to negative at distance 17 (so the claim's bound is (0, 17)), but the code
truncates at x_[np.argmin(vals_)], which is not the first crossing: the
bound the code computes differs from the claimed one. -/
theorem mass_trunc_not_first_crossing :
    specFirstCrossingBounds f7 198 1 = (0, 17) ∧
      massEdgeBounds f7 198 1 ≠ specFirstCrossingBounds f7 198 1 := by
  refine ⟨specBounds7_pos, ?_⟩
  rw [specBounds7_pos, massEdgeBounds7_eq]
  intro h
  have h2 : ((argminIdx (coarseVals f7 198 1) : ℕ) : ℚ) = 17 := congrArg Prod.snd h
  have h3 : argminIdx (coarseVals f7 198 1) = 17 := by exact_mod_cast h2
  exact cv7pos_am_ne17 h3

/-- C7 (amended): when the coarse scan of a half-line dips below zero the
integration bound is truncated at the coarse abscissa of the scan MINIMUM
(np.argmin, the first index attaining it), which lies at or beyond the
first zero crossing; on the negative half-line the lower bound is set to
the NEGATION of the argmin abscissa (reflecting the interval). -/
theorem mass_trunc_at_argmin (f : ℚ → ℚ) (mw : ℚ) (hmw : 0 ≤ mw)
    (hneg : listMinQ (coarseVals f mw 1) < 0)
    (hneg' : listMinQ (coarseVals f mw (-1)) < 0) :
    massEdgeBounds f mw 1 =
        (0, (coarseXs mw 1).getD (argminIdx (coarseVals f mw 1)) 0) ∧
      (coarseXs mw 1).getD ((coarseVals f mw 1).findIdx fun v => decide (v < 0)) 0 ≤
        (coarseXs mw 1).getD (argminIdx (coarseVals f mw 1)) 0 ∧
      massEdgeBounds f mw (-1) =
        (-((coarseXs mw (-1)).getD (argminIdx (coarseVals f mw (-1))) 0), 0) := by
  have ham : argminIdx (coarseVals f mw 1) < 100 := by
    have := argminIdx_lt_length _ (coarseVals_ne_nil f mw 1)
    rwa [coarseVals_length] at this
  refine ⟨?_, ?_, ?_⟩
  · unfold massEdgeBounds
    rw [if_pos hneg, if_pos rfl]
  · have hfc : (coarseVals f mw 1).findIdx (fun v => decide (v < 0)) ≤
        argminIdx (coarseVals f mw 1) := by
      apply findIdx_le_of_getD
      · rw [coarseVals_length]; exact ham
      · rw [getD_argminIdx _ (coarseVals_ne_nil f mw 1)]
        simpa using hneg
    unfold coarseXs
    rw [nominalBounds_pos mw]
    exact linspace_getD_mono 0 (mw / 2) 100 _ _ (by linarith) hfc ham (by norm_num)
  · unfold massEdgeBounds
    rw [if_pos hneg']
    rw [if_neg (show ¬((-1 : ℚ) = 1) by norm_num)]

/-- C7 amended witness: the amended truncation theorem applied to the
concrete field dataC7 along theta = 0 with max_width = 198, where both
half-line scans dip below zero. -/
theorem mass_trunc_at_argmin_witness :
    (0 : ℚ) ≤ 198 ∧ listMinQ (coarseVals f7 198 1) < 0 ∧
      listMinQ (coarseVals f7 198 (-1)) < 0 ∧
      (massEdgeBounds f7 198 1 =
          (0, (coarseXs 198 1).getD (argminIdx (coarseVals f7 198 1)) 0) ∧
        (coarseXs 198 1).getD ((coarseVals f7 198 1).findIdx fun v => decide (v < 0)) 0 ≤
          (coarseXs 198 1).getD (argminIdx (coarseVals f7 198 1)) 0 ∧
        massEdgeBounds f7 198 (-1) =
          (-((coarseXs 198 (-1)).getD (argminIdx (coarseVals f7 198 (-1))) 0), 0)) :=
  ⟨by norm_num, cv7pos_min_lt, cv7neg_min_lt,
    mass_trunc_at_argmin f7 198 (by norm_num) cv7pos_min_lt cv7neg_min_lt⟩

/-- Concrete cumulant field for C1: along y = 0 the node values are
[1, -1, 2, -1, 1]; the cells at x = -200 and x = 200 share the sign of the
zero-lag cell but are disconnected from it, so the sign-coherent masking
removes them; all off-axis values are -1. -/
def dataC1 : QField :=
  ⟨[-200, -100, 0, 100, 200], [-100, 0, 100],
   [[-1, 1, -1], [-1, -1, -1], [-1, 2, -1], [-1, -1, -1], [-1, 1, -1]]⟩

/-- C1: the claim says the mass-weighted width is computed from a line
sampler built over the sign-coherent-masked field, masked-out cells
contributing nothing to the integrals. The source builds the sampler
before the extraction, so (a) center_only has no effect whatsoever on the
computed width, and (b,c) on the concrete field dataC1 the sampler and
the clipped integrand at distance mu = 200 take the masked-out cell's
value 1 rather than the 0 of the masked field: the masked-out cells do
contribute. -/
theorem mass_weighting_samples_unmasked_field :
    (∀ (Q : (ℚ → ℚ) → ℚ → ℚ → ℚ) (ct st mw : ℚ),
        find_width_through_mass_weighting Q dataC1 ct st mw true =
          find_width_through_mass_weighting Q dataC1 ct st mw false) ∧
      get_line_sample_func dataC1 1 0 200 = 1 ∧
      get_line_sample_func (extract_cumulant_center dataC1) 1 0 200 = 0 ∧
      clippedWeight (get_line_sample_func dataC1 1 0) 200 ≠
        clippedWeight (get_line_sample_func (extract_cumulant_center dataC1) 1 0) 200 := by
  refine ⟨fun Q ct st mw => rfl, ?_, ?_, ?_⟩ <;> with_unfolding_all decide

/-- Concrete cumulant field for C9: the global maximum 10 sits at the
corner (x, y) = (-100, -100), off the sampled line y = 0, whose own peak
is the zero-lag value 2. -/
def dataC9 : QField :=
  ⟨[-100, 0, 100], [-100, 0, 100], [[10, 0, 0], [0, 2, 0], [0, 0, 0]]⟩

/-- C9 counterexample: on dataC9 along theta = 0 the normalised profile at
the profile's maximum (the zero-lag value 2) is 2/10 = 1/5, not 1: the
peak the code divides by is the global field maximum
(data.values.max() = 10), not the maximum of the sampled profile over the
window as the claim states. -/
theorem cutoff_norm_not_window_peak :
    cutoffNormed dataC9 1 0 0 = 1/5 ∧ specCutoffNormed dataC9 1 0 5000 0 = 1 ∧
      cutoffNormed dataC9 1 0 0 ≠ specCutoffNormed dataC9 1 0 5000 0 := by
  refine ⟨?_, ?_, ?_⟩ <;> with_unfolding_all decide

/-- C9 (amended): the cutoff profile is normalised as
(value - reference)/(peak - reference) with reference fixed at 0.0 and
peak equal to data.values.max(), the maximum of the field over the WHOLE
domain; consequently the normalised profile attains 1 at a sample point
exactly when the sampled value there equals the field's global maximum. -/
theorem cutoff_norm_uses_global_max (data : QField) (ct st mu : ℚ) :
    cutoffNormed data ct st mu =
        (get_line_sample_func data ct st mu - dAtInf) / (gridMax data - dAtInf) ∧
      (gridMax data ≠ 0 → get_line_sample_func data ct st mu = gridMax data →
        cutoffNormed data ct st mu = 1) := by
  refine ⟨rfl, fun h0 hs => ?_⟩
  unfold cutoffNormed dAtInf
  rw [hs, sub_zero]
  exact div_self h0

/-- C9 amended witness: on the field dataW10 the global maximum 4 lies on
the sampled line (at zero lag), and the normalised profile is 1 there. -/
theorem cutoff_norm_uses_global_max_witness :
    gridMax dataW10 ≠ 0 ∧ get_line_sample_func dataW10 1 0 0 = gridMax dataW10 ∧
      cutoffNormed dataW10 1 0 0 = 1 := by
  have h0 : gridMax dataW10 ≠ 0 := by with_unfolding_all decide
  have hs : get_line_sample_func dataW10 1 0 0 = gridMax dataW10 := by
    with_unfolding_all decide
  exact ⟨h0, hs, (cutoff_norm_uses_global_max dataW10 1 0 0).2 h0 hs⟩

theorem linspace_getD_bounds_rev (a b : ℚ) (n k : ℕ) (hba : b ≤ a) (hk : k < n)
    (hn : 2 ≤ n) : b ≤ (linspace a b n).getD k 0 ∧ (linspace a b n).getD k 0 ≤ a := by
  rw [linspace_getD a b n k hk]
  have hn1 : (0 : ℚ) < (n : ℚ) - 1 := by
    have : (2 : ℚ) ≤ (n : ℚ) := by exact_mod_cast hn
    linarith
  have hk1 : (k : ℚ) ≤ (n : ℚ) - 1 := by
    have : (k : ℚ) + 1 ≤ (n : ℚ) := by exact_mod_cast hk
    linarith
  constructor
  · have h1 : (a - b) * (k : ℚ) / ((n : ℚ) - 1) ≤ a - b := by
      rw [div_le_iff hn1]
      have := mul_le_mul_of_nonneg_left hk1 (by linarith : (0 : ℚ) ≤ a - b)
      linarith
    have h2 : (b - a) * (k : ℚ) / ((n : ℚ) - 1) = -((a - b) * (k : ℚ) / ((n : ℚ) - 1)) := by
      ring
    rw [h2]
    linarith
  · have h0 : 0 ≤ (a - b) * (k : ℚ) / ((n : ℚ) - 1) :=
      div_nonneg (mul_nonneg (by linarith) (by positivity)) hn1.le
    have h2 : (b - a) * (k : ℚ) / ((n : ℚ) - 1) = -((a - b) * (k : ℚ) / ((n : ℚ) - 1)) := by
      ring
    rw [h2]
    linarith

theorem clippedWeight_nonneg (f : ℚ → ℚ) (t : ℚ) : 0 ≤ clippedWeight f t :=
  le_max_left 0 _

theorem inertiaWeight_nonneg (f : ℚ → ℚ) (t : ℚ) : 0 ≤ inertiaWeight f t :=
  mul_nonneg (clippedWeight_nonneg f t) (abs_nonneg t)

theorem coarseXs_pos_eq (mw : ℚ) : coarseXs mw 1 = linspace 0 (mw / 2) 100 := by
  unfold coarseXs
  rw [nominalBounds_pos mw]

theorem coarseXs_argmin_nonneg (f : ℚ → ℚ) (mw : ℚ) (hmw : 0 ≤ mw)
    (ham : argminIdx (coarseVals f mw 1) < 100) :
    0 ≤ (coarseXs mw 1).getD (argminIdx (coarseVals f mw 1)) 0 := by
  rw [coarseXs_pos_eq mw]
  exact (linspace_getD_bounds 0 (mw / 2) 100 (argminIdx (coarseVals f mw 1))
    (by linarith) ham (by norm_num)).1

theorem massEdgeBounds_pos_parts (f : ℚ → ℚ) (mw : ℚ) (hmw : 0 ≤ mw) :
    (massEdgeBounds f mw 1).1 = 0 ∧ 0 ≤ (massEdgeBounds f mw 1).2 := by
  have ham : argminIdx (coarseVals f mw 1) < 100 := by
    have := argminIdx_lt_length _ (coarseVals_ne_nil f mw 1)
    rwa [coarseVals_length] at this
  have hkey := coarseXs_argmin_nonneg f mw hmw ham
  unfold massEdgeBounds
  split_ifs with h1 h2
  · exact ⟨rfl, hkey⟩
  · exact absurd rfl h2
  · rw [nominalBounds_pos mw]
    exact ⟨rfl, by linarith⟩

theorem massEdgeBounds_neg_snd (f : ℚ → ℚ) (mw : ℚ) :
    (massEdgeBounds f mw (-1)).2 = 0 := by
  unfold massEdgeBounds nominalBounds
  split_ifs with h1 h2 h3
  · exact absurd h2 (by norm_num)
  · rfl
  · exact absurd h3 (by norm_num)
  · rfl

theorem mass_weighted_edge_pos_nonneg (Q : (ℚ → ℚ) → ℚ → ℚ → ℚ) (f : ℚ → ℚ)
    (mw : ℚ) (hQn : QuadNonneg Q) (hmw : 0 ≤ mw) :
    ∀ w, mass_weighted_edge Q f mw 1 = some w → 0 ≤ w := by
  intro w h
  unfold mass_weighted_edge at h
  by_cases hm : edgeMass Q f mw 1 = 0
  · rw [if_pos hm] at h
    exact absurd h (by simp)
  · rw [if_neg hm] at h
    have hw : (1 : ℚ) * (edgeInertia Q f mw 1 / edgeMass Q f mw 1) = w := Option.some.inj h
    obtain ⟨hb1, hb2⟩ := massEdgeBounds_pos_parts f mw hmw
    have hM : 0 ≤ edgeMass Q f mw 1 := by
      unfold edgeMass
      rw [hb1]
      exact hQn _ 0 _ hb2 (clippedWeight_nonneg f)
    have hI : 0 ≤ edgeInertia Q f mw 1 := by
      unfold edgeInertia
      rw [hb1]
      exact hQn _ 0 _ hb2 (inertiaWeight_nonneg f)
    rw [← hw, one_mul]
    exact div_nonneg hI hM

theorem mass_weighted_edge_neg_nonpos (Q : (ℚ → ℚ) → ℚ → ℚ → ℚ) (f : ℚ → ℚ)
    (mw : ℚ) (hQn : QuadNonneg Q) (hQr : QuadRev Q) :
    ∀ w, mass_weighted_edge Q f mw (-1) = some w → w ≤ 0 := by
  intro w h
  unfold mass_weighted_edge at h
  by_cases hm : edgeMass Q f mw (-1) = 0
  · rw [if_pos hm] at h
    exact absurd h (by simp)
  · rw [if_neg hm] at h
    have hw : (-1 : ℚ) * (edgeInertia Q f mw (-1) / edgeMass Q f mw (-1)) = w :=
      Option.some.inj h
    have hsnd := massEdgeBounds_neg_snd f mw
    have hdiv : 0 ≤ edgeInertia Q f mw (-1) / edgeMass Q f mw (-1) := by
      rcases le_or_lt (massEdgeBounds f mw (-1)).1 0 with hA | hA
      · have hM : 0 ≤ edgeMass Q f mw (-1) := by
          unfold edgeMass
          rw [hsnd]
          exact hQn _ _ 0 hA (clippedWeight_nonneg f)
        have hI : 0 ≤ edgeInertia Q f mw (-1) := by
          unfold edgeInertia
          rw [hsnd]
          exact hQn _ _ 0 hA (inertiaWeight_nonneg f)
        exact div_nonneg hI hM
      · have hM' : edgeMass Q f mw (-1) =
            -(Q (clippedWeight f) 0 (massEdgeBounds f mw (-1)).1) := by
          unfold edgeMass
          rw [hsnd]
          exact hQr _ _ 0
        have hI' : edgeInertia Q f mw (-1) =
            -(Q (inertiaWeight f) 0 (massEdgeBounds f mw (-1)).1) := by
          unfold edgeInertia
          rw [hsnd]
          exact hQr _ _ 0
        have hMn : edgeMass Q f mw (-1) ≤ 0 := by
          rw [hM']
          have := hQn _ 0 _ hA.le (clippedWeight_nonneg f)
          linarith
        have hIn : edgeInertia Q f mw (-1) ≤ 0 := by
          rw [hI']
          have := hQn _ 0 _ hA.le (inertiaWeight_nonneg f)
          linarith
        rw [show edgeInertia Q f mw (-1) / edgeMass Q f mw (-1) =
            (-(edgeInertia Q f mw (-1))) / (-(edgeMass Q f mw (-1))) by rw [neg_div_neg_eq]]
        exact div_nonneg (by linarith) (by linarith)
    rw [← hw]
    linarith

theorem cutoffMuLim_pos_nonneg (data : QField) (ct st mw : ℚ) (hmw : 0 ≤ mw) :
    0 ≤ cutoffMuLim data ct st mw 1 := by
  simp only [cutoffMuLim]
  split_ifs with h
  · rw [linspace_length] at h
    have := (linspace_getD_bounds 0 (1 * mw) 100 _ (by linarith) h (by norm_num)).1
    linarith
  · linarith

theorem cutoffMuLim_neg_nonpos (data : QField) (ct st mw : ℚ) (hmw : 0 ≤ mw) :
    cutoffMuLim data ct st mw (-1) ≤ 0 := by
  simp only [cutoffMuLim]
  split_ifs with h
  · rw [linspace_length] at h
    have := (linspace_getD_bounds_rev 0 (-1 * mw) 100 _ (by linarith) h (by norm_num)).2
    linarith
  · linarith

theorem FVal.sub_fin_fin (a b : ℚ) : FVal.sub (.fin a) (.fin b) = .fin (a - b) := rfl

theorem FVal.sub_fin_pinf (a : ℚ) : FVal.sub (.fin a) .pinf = .ninf := rfl

theorem FVal.sub_pinf_fin (a : ℚ) : FVal.sub .pinf (.fin a) = .pinf := rfl

theorem FVal.sub_pinf_pinf : FVal.sub .pinf .pinf = .nan := rfl

theorem cutoffEdge_eq_fin (RF : (ℚ → ℚ) → ℚ → ℚ → Option ℚ)
    (data : QField) (ct st frac mw dir r : ℚ)
    (h : RF (cutoffRootFn data ct st frac) 0 (cutoffMuLim data ct st mw dir) = some r) :
    cutoffEdge RF data ct st frac mw dir = .fin r := by
  unfold cutoffEdge
  rw [h]

theorem cutoffEdge_eq_pinf (RF : (ℚ → ℚ) → ℚ → ℚ → Option ℚ)
    (data : QField) (ct st frac mw dir : ℚ)
    (h : RF (cutoffRootFn data ct st frac) 0 (cutoffMuLim data ct st mw dir) = none) :
    cutoffEdge RF data ct st frac mw dir = .pinf := by
  unfold cutoffEdge
  rw [h]

/-- C10: on every input on which they return, the two width estimators
never produce a negative finite number: whenever the mass-weighted
estimator returns a finite width it is nonnegative, and whenever the
cutoff estimator returns a finite width it is nonnegative; every other
outcome is one of the sentinels NaN (none for the mass-weighted method)
or an infinity (the FVal sentinels of the cutoff method). The quadrature
and root-finder oracles are constrained by the contracts of
scipy.integrate.quad and scipy.optimize.brentq. -/
theorem width_estimators_never_negative_finite
    (Q : (ℚ → ℚ) → ℚ → ℚ → ℚ) (RF : (ℚ → ℚ) → ℚ → ℚ → Option ℚ)
    (data : QField) (ct st frac mw : ℚ) (centerOnly : Bool)
    (hQn : QuadNonneg Q) (hQr : QuadRev Q) (hRF : IsRootFinder RF) (hmw : 0 ≤ mw) :
    (∀ q, find_width_through_mass_weighting Q data ct st mw centerOnly = some q → 0 ≤ q) ∧
      (∀ r, find_width_through_cutoff RF data ct st frac mw = FVal.fin r → 0 ≤ r) := by
  constructor
  · intro q h
    have h' : widthFromSample Q (get_line_sample_func data ct st) mw = some q := h
    unfold widthFromSample at h'
    cases h1 : mass_weighted_edge Q (get_line_sample_func data ct st) mw 1 with
    | none => rw [h1] at h'; simp at h'
    | some w1 =>
      cases h2 : mass_weighted_edge Q (get_line_sample_func data ct st) mw (-1) with
      | none => rw [h1, h2] at h'; simp at h'
      | some w2 =>
        rw [h1, h2] at h'
        have hq : w1 - w2 = q := by simpa using h'
        have hw1 := mass_weighted_edge_pos_nonneg Q _ mw hQn hmw w1 h1
        have hw2 := mass_weighted_edge_neg_nonpos Q _ mw hQn hQr w2 h2
        linarith
  · intro r h
    unfold find_width_through_cutoff at h
    cases h1 : RF (cutoffRootFn data ct st frac) 0 (cutoffMuLim data ct st mw 1) with
    | none =>
      rw [cutoffEdge_eq_pinf RF data ct st frac mw 1 h1] at h
      cases h2 : RF (cutoffRootFn data ct st frac) 0 (cutoffMuLim data ct st mw (-1)) with
      | none =>
        rw [cutoffEdge_eq_pinf RF data ct st frac mw (-1) h2, FVal.sub_pinf_pinf] at h
        exact absurd h (by intro hc; cases hc)
      | some r2 =>
        rw [cutoffEdge_eq_fin RF data ct st frac mw (-1) r2 h2, FVal.sub_pinf_fin] at h
        exact absurd h (by intro hc; cases hc)
    | some r1 =>
      rw [cutoffEdge_eq_fin RF data ct st frac mw 1 r1 h1] at h
      cases h2 : RF (cutoffRootFn data ct st frac) 0 (cutoffMuLim data ct st mw (-1)) with
      | none =>
        rw [cutoffEdge_eq_pinf RF data ct st frac mw (-1) h2, FVal.sub_fin_pinf] at h
        exact absurd h (by intro hc; cases hc)
      | some r2 =>
        rw [cutoffEdge_eq_fin RF data ct st frac mw (-1) r2 h2, FVal.sub_fin_fin] at h
        have hr : r1 - r2 = r := by
          injection h
        have hlim1 := cutoffMuLim_pos_nonneg data ct st mw hmw
        have hlim2 := cutoffMuLim_neg_nonpos data ct st mw hmw
        obtain ⟨hr1a, hr1b, _⟩ := ((hRF (cutoffRootFn data ct st frac) 0
          (cutoffMuLim data ct st mw 1)).2) r1 h1
        obtain ⟨hr2a, hr2b, _⟩ := ((hRF (cutoffRootFn data ct st frac) 0
          (cutoffMuLim data ct st mw (-1))).2) r2 h2
        rw [min_eq_left hlim1] at hr1a
        rw [max_eq_left hlim2] at hr2b
        linarith

/-- C10 witness: the nonnegativity theorem applied at the concrete field
dataW10 along theta = 0 with the midpoint quadrature and the
always-failing root finder. -/
theorem width_estimators_never_negative_finite_witness :
    QuadNonneg midQuad ∧ QuadRev midQuad ∧ IsRootFinder noRoot ∧ (0 : ℚ) ≤ 5000 ∧
      ((∀ q, find_width_through_mass_weighting midQuad dataW10 1 0 5000 true = some q →
          0 ≤ q) ∧
        (∀ r, find_width_through_cutoff noRoot dataW10 1 0 (1/2) 5000 = FVal.fin r →
          0 ≤ r)) :=
  ⟨midQuad_nonneg, midQuad_rev, noRoot_isRootFinder, by norm_num,
    width_estimators_never_negative_finite midQuad noRoot dataW10 1 0 (1/2) 5000 true
      midQuad_nonneg midQuad_rev noRoot_isRootFinder (by norm_num)⟩
